import Mathlib

/-!
Verification of the topic-matcher module (`src/pattern-playground/matcher.js`,
built from `src/topic-matcher.ts`) of the pubsub-mfe repository.

Strings are embedded as `List Char`; the process-wide matcher cache (a JS
`Map`, iterated in insertion order) is embedded as an insertion-ordered list
of key/value entries, oldest first.
-/

namespace TopicMatcher

/-- Constant `SEGMENT_DELIMITER = "."` from the source. -/
def SEGMENT_DELIMITER : Char := '.'

/-- Constant `SINGLE_WILDCARD = "+"` from the source. -/
def SINGLE_WILDCARD : Char := '+'

/-- Constant `MULTI_WILDCARD = "#"` from the source. -/
def MULTI_WILDCARD : Char := '#'

/-- Constant `MAX_CACHE_SIZE = 1e3` from the source. -/
def MAX_CACHE_SIZE : Nat := 1000

/-- Function `splitTopic(topic) = topic.split(SEGMENT_DELIMITER)`: JavaScript
single-character split. `"".split(".") = [""]`, so the empty string maps to
`[[]]` and the result is never the empty list. -/
def splitTopic : List Char → List (List Char)
  | [] => [[]]
  | c :: cs =>
    if c = SEGMENT_DELIMITER then [] :: splitTopic cs
    else
      match splitTopic cs with
      | [] => [[c]]
      | s :: rest => (c :: s) :: rest

/-- Function `joinTopic(...segments) = segments.join(SEGMENT_DELIMITER)`: JavaScript
`Array.prototype.join` with a single-character separator. -/
def joinTopic : List (List Char) → List Char
  | [] => []
  | [s] => s
  | s :: r :: rest => s ++ SEGMENT_DELIMITER :: joinTopic (r :: rest)

/-- The character class `[a-zA-Z0-9_-]` of the segment regex. -/
def isValidSegChar (c : Char) : Bool :=
  (decide ('a' ≤ c) && decide (c ≤ 'z')) ||
  (decide ('A' ≤ c) && decide (c ≤ 'Z')) ||
  (decide ('0' ≤ c) && decide (c ≤ '9')) ||
  c == '_' || c == '-'

/-- The test `/^[a-zA-Z0-9_-]+$/.test(segment)` from the source: one or more
characters, all in the class. -/
def isValidLiteral (seg : List Char) : Bool :=
  !seg.isEmpty && seg.all isValidSegChar

/-- A compiled matcher segment: `{type:"literal",value}`, `{type:"single"}`
or `{type:"multi"}`. -/
inductive MatcherSegment where
  | literal (value : List Char)
  | single
  | multi
deriving DecidableEq, Repr

/-- The compiled matcher object `{pattern, hasWildcards, segments}`. -/
structure Matcher where
  pattern : List Char
  hasWildcards : Bool
  segments : List MatcherSegment
deriving DecidableEq, Repr

/-- The distinct `throw new Error(...)` sites of `compileMatcher`. -/
inductive CompileError where
  | invalidPattern
  | emptySegment (pos : Nat)
  | multiWildcardNotLast
  | invalidCharacters (seg : List Char)
deriving DecidableEq, Repr

/-- The validation/compilation loop of `compileMatcher` over the split
segments: `rest` is the tail of segments not yet visited, `i` the index of
its head, `n` the total number of segments (`segments.length`). Returns the
compiled matcher segments together with the accumulated `hasWildcards`
flag, or the first error thrown. -/
def compileSegs : List (List Char) → Nat → Nat → Except CompileError (List MatcherSegment × Bool)
  | [], _, _ => .ok ([], false)
  | seg :: rest, i, n =>
    if seg.isEmpty then .error (.emptySegment i)
    else if seg == [MULTI_WILDCARD] then
      if i ≠ n - 1 then .error .multiWildcardNotLast
      else
        match compileSegs rest (i + 1) n with
        | .error e => .error e
        | .ok (ms, _) => .ok (.multi :: ms, true)
    else if seg == [SINGLE_WILDCARD] then
      match compileSegs rest (i + 1) n with
      | .error e => .error e
      | .ok (ms, _) => .ok (.single :: ms, true)
    else if isValidLiteral seg then
      match compileSegs rest (i + 1) n with
      | .error e => .error e
      | .ok (ms, hw) => .ok (.literal seg :: ms, hw)
    else .error (.invalidCharacters seg)

/-- The cache-independent part of `compileMatcher(pattern)`: the
`!pattern` guard, the split, and the segment loop, producing the matcher
object `{pattern, hasWildcards, segments}`. -/
def compileMatcherPure (pattern : List Char) : Except CompileError Matcher :=
  if pattern.isEmpty then .error .invalidPattern
  else
    let segments := splitTopic pattern
    match compileSegs segments 0 segments.length with
    | .error e => .error e
    | .ok (ms, hw) => .ok { pattern := pattern, hasWildcards := hw, segments := ms }

/-- The module-level `matcherCache` (a JS `Map`), embedded as its entry list
in insertion order, oldest entry first. -/
structure CacheState where
  entries : List (List Char × Matcher)
deriving DecidableEq, Repr

/-- Lookup `matcherCache.get(pattern)`. -/
def cacheGet (s : CacheState) (p : List Char) : Option Matcher :=
  (s.entries.find? (fun e => e.1 == p)).map (·.2)

/-- Function `compileMatcher(pattern)` with the cache state explicit: return the
cached matcher on a hit; otherwise validate and compile, evict the oldest
entry (`matcherCache.keys().next().value`) when the cache is at capacity,
insert the new matcher, and return it. -/
def compileMatcher (s : CacheState) (pattern : List Char) :
    Except CompileError (Matcher × CacheState) :=
  match cacheGet s pattern with
  | some cached => .ok (cached, s)
  | none =>
    match compileMatcherPure pattern with
    | .error e => .error e
    | .ok m =>
      let entries :=
        if MAX_CACHE_SIZE ≤ s.entries.length then s.entries.drop 1 else s.entries
      .ok (m, ⟨entries ++ [(pattern, m)]⟩)

/-- Function `matchSegments(topicSegments, topicIndex, patternSegments, patternIndex)`
with the two index cursors replaced by the corresponding list suffixes. -/
def matchSegments : List (List Char) → List MatcherSegment → Bool
  | ts, [] => ts.isEmpty
  | _, .multi :: _ => true
  | [], .single :: _ => false
  | _ :: ts, .single :: ps => matchSegments ts ps
  | [], .literal _ :: _ => false
  | t :: ts, .literal v :: ps => if t == v then matchSegments ts ps else false

/-- Function `matchTopic(topic, matcher)`: wildcard-free fast path is plain equality
with the original pattern; otherwise split the topic, fail on any empty
segment, and run the segment matcher. -/
def matchTopic (topic : List Char) (m : Matcher) : Bool :=
  if !m.hasWildcards then topic == m.pattern
  else
    let topicSegments := splitTopic topic
    if topicSegments.any (·.isEmpty) then false
    else matchSegments topicSegments m.segments

/-- The distinct `throw new Error(...)` sites of `validatePublishTopic`. -/
inductive TopicError where
  | invalidTopic
  | wildcardInTopic
  | emptySegment (pos : Nat)
  | invalidCharacters (seg : List Char)
deriving DecidableEq, Repr

/-- The per-segment loop of `validatePublishTopic`. -/
def validateSegs : List (List Char) → Nat → Except TopicError Unit
  | [], _ => .ok ()
  | seg :: rest, i =>
    if seg.isEmpty then .error (.emptySegment i)
    else if !isValidLiteral seg then .error (.invalidCharacters seg)
    else validateSegs rest (i + 1)

/-- Function `validatePublishTopic(topic)`: reject the empty topic, any wildcard
character anywhere in the topic, and any empty or invalid segment. -/
def validatePublishTopic (topic : List Char) : Except TopicError Unit :=
  if topic.isEmpty then .error .invalidTopic
  else if topic.contains SINGLE_WILDCARD || topic.contains MULTI_WILDCARD then
    .error .wildcardInTopic
  else validateSegs (splitTopic topic) 0

/-- Compile a pattern (cache-independently) and, on success, match a topic
against the resulting matcher: the composition exercised by the spec's
`match(t, compile(p))` test properties. -/
def compileThenMatch (p t : List Char) : Option Bool :=
  match compileMatcherPure p with
  | .error _ => none
  | .ok m => some (matchTopic t m)

/-- The spec's pattern-legality rule, stated on the split segments: each
segment is the single wildcard, the multi wildcard in last position only,
or a literal matching `[A-Za-z0-9_-]+`; no segment is empty. -/
def specValidSegs : List (List Char) → Bool
  | [] => true
  | seg :: rest =>
    (seg == [SINGLE_WILDCARD] && specValidSegs rest) ||
    (seg == [MULTI_WILDCARD] && rest.isEmpty) ||
    (isValidLiteral seg && specValidSegs rest)

/-- The spec's notion of a valid (compilable) pattern string: non-empty,
and every segment of its split legal per `specValidSegs`. -/
def specValidPattern (p : List Char) : Bool :=
  !p.isEmpty && specValidSegs (splitTopic p)

/-! ### Properties of `splitTopic` and `joinTopic` -/

theorem splitTopic_ne_nil (l : List Char) : splitTopic l ≠ [] := by
  cases l with
  | nil => simp [splitTopic]
  | cons c cs =>
    simp only [splitTopic]
    split
    · simp
    · split <;> simp

theorem joinTopic_splitTopic (l : List Char) : joinTopic (splitTopic l) = l := by
  induction l with
  | nil => rfl
  | cons c cs ih =>
    by_cases hc : c = SEGMENT_DELIMITER
    · rw [hc]
      simp only [splitTopic, if_pos rfl]
      cases hsplit : splitTopic cs with
      | nil => exact absurd hsplit (splitTopic_ne_nil cs)
      | cons s rest =>
        rw [hsplit] at ih
        show joinTopic ([] :: s :: rest) = SEGMENT_DELIMITER :: cs
        simp only [joinTopic, List.nil_append]
        rw [ih]
    · simp only [splitTopic, if_neg hc]
      cases hsplit : splitTopic cs with
      | nil => exact absurd hsplit (splitTopic_ne_nil cs)
      | cons s rest =>
        rw [hsplit] at ih
        cases rest with
        | nil =>
          show joinTopic [c :: s] = c :: cs
          simpa [joinTopic] using congrArg (c :: ·) ih
        | cons r rs =>
          show joinTopic ((c :: s) :: r :: rs) = c :: cs
          simp only [joinTopic, List.cons_append] at ih ⊢
          rw [ih]

theorem mem_of_mem_splitTopic {c : Char} {s l : List Char}
    (hs : s ∈ splitTopic l) (hc : c ∈ s) : c ∈ l := by
  induction l generalizing s with
  | nil =>
    simp [splitTopic] at hs
    subst hs
    exact absurd hc (List.not_mem_nil c)
  | cons d ds ih =>
    by_cases hd : d = SEGMENT_DELIMITER
    · rw [splitTopic, if_pos hd] at hs
      rcases List.mem_cons.mp hs with h | h
      · subst h; exact absurd hc (List.not_mem_nil c)
      · exact List.mem_cons_of_mem d (ih h hc)
    · rw [splitTopic, if_neg hd] at hs
      cases hsplit : splitTopic ds with
      | nil => exact absurd hsplit (splitTopic_ne_nil ds)
      | cons s0 rest =>
        rw [hsplit] at hs
        rcases List.mem_cons.mp hs with h | h
        · subst h
          rcases List.mem_cons.mp hc with h | h
          · exact h ▸ List.mem_cons_self d ds
          · exact List.mem_cons_of_mem d
              (ih (hsplit ▸ List.mem_cons_self s0 rest) h)
        · exact List.mem_cons_of_mem d
            (ih (hsplit ▸ List.mem_cons_of_mem s0 h) hc)

theorem mem_splitTopic_of_mem {c : Char} {l : List Char} (h : c ∈ l) :
    c = SEGMENT_DELIMITER ∨ ∃ s ∈ splitTopic l, c ∈ s := by
  induction l with
  | nil => exact absurd h (List.not_mem_nil c)
  | cons d ds ih =>
    by_cases hd : d = SEGMENT_DELIMITER
    · rcases List.mem_cons.mp h with h | h
      · exact Or.inl (h.trans hd)
      · rcases ih h with h | ⟨s, hs, hcs⟩
        · exact Or.inl h
        · refine Or.inr ⟨s, ?_, hcs⟩
          rw [splitTopic, if_pos hd]
          exact List.mem_cons_of_mem [] hs
    · cases hsplit : splitTopic ds with
      | nil => exact absurd hsplit (splitTopic_ne_nil ds)
      | cons s0 rest =>
        have hform : splitTopic (d :: ds) = (d :: s0) :: rest := by
          rw [splitTopic, if_neg hd, hsplit]
        rcases List.mem_cons.mp h with h | h
        · refine Or.inr ⟨d :: s0, ?_, h ▸ List.mem_cons_self d s0⟩
          rw [hform]; exact List.mem_cons_self _ _
        · rcases ih h with h | ⟨s, hs, hcs⟩
          · exact Or.inl h
          · rw [hsplit] at hs
            rcases List.mem_cons.mp hs with h | h
            · refine Or.inr ⟨d :: s0, ?_, ?_⟩
              · rw [hform]; exact List.mem_cons_self _ _
              · exact List.mem_cons_of_mem d (h ▸ hcs)
            · refine Or.inr ⟨s, ?_, hcs⟩
              rw [hform]
              exact List.mem_cons_of_mem _ h

theorem splitTopic_no_delim {s : List Char} (h : SEGMENT_DELIMITER ∉ s) :
    splitTopic s = [s] := by
  induction s with
  | nil => rfl
  | cons c cs ih =>
    have hc : c ≠ SEGMENT_DELIMITER := fun hc => h (hc ▸ List.mem_cons_self c cs)
    rw [splitTopic, if_neg hc, ih (fun hm => h (List.mem_cons_of_mem c hm))]

theorem splitTopic_append_delim {s : List Char} (l : List Char)
    (h : SEGMENT_DELIMITER ∉ s) :
    splitTopic (s ++ SEGMENT_DELIMITER :: l) = s :: splitTopic l := by
  induction s with
  | nil => simp [splitTopic]
  | cons c cs ih =>
    have hc : c ≠ SEGMENT_DELIMITER := fun hc => h (hc ▸ List.mem_cons_self c cs)
    rw [List.cons_append, splitTopic, if_neg hc,
      ih (fun hm => h (List.mem_cons_of_mem c hm))]

theorem splitTopic_joinTopic {segs : List (List Char)} (hne : segs ≠ [])
    (hnd : ∀ s ∈ segs, SEGMENT_DELIMITER ∉ s) :
    splitTopic (joinTopic segs) = segs := by
  induction segs with
  | nil => exact absurd rfl hne
  | cons s rest ih =>
    cases rest with
    | nil =>
      show splitTopic (joinTopic [s]) = [s]
      exact splitTopic_no_delim (hnd s (List.mem_cons_self s []))
    | cons r rs =>
      show splitTopic (s ++ SEGMENT_DELIMITER :: joinTopic (r :: rs)) = s :: r :: rs
      rw [splitTopic_append_delim _ (hnd s (List.mem_cons_self _ _)),
        ih (by simp) (fun x hx => hnd x (List.mem_cons_of_mem s hx))]

/-! ### Properties of the compilation and validation loops -/

@[simp] theorem isOk_error {ε α : Type} (e : ε) :
    (Except.error e : Except ε α).isOk = false := rfl

@[simp] theorem isOk_ok {ε α : Type} (a : α) :
    (Except.ok a : Except ε α).isOk = true := rfl

theorem validateSegs_isOk (segs : List (List Char)) (i : Nat) :
    (validateSegs segs i).isOk = segs.all isValidLiteral := by
  induction segs generalizing i with
  | nil => rfl
  | cons seg rest ih =>
    simp only [validateSegs, List.all_cons]
    by_cases h1 : seg.isEmpty = true
    · have hv : isValidLiteral seg = false := by simp [isValidLiteral, h1]
      rw [if_pos h1, hv]
      simp
    · rw [if_neg h1]
      cases hv : isValidLiteral seg with
      | false => simp [ih]
      | true => simp [ih]

theorem compileSegs_wildcard {segs : List (List Char)} {i n : Nat}
    {ms : List MatcherSegment}
    (h : compileSegs segs i n = .ok (ms, true)) :
    ∃ s ∈ segs, s = [SINGLE_WILDCARD] ∨ s = [MULTI_WILDCARD] := by
  induction segs generalizing i ms with
  | nil => simp [compileSegs] at h
  | cons seg rest ih =>
    by_cases h2 : (seg == [MULTI_WILDCARD]) = true
    · exact ⟨seg, List.mem_cons_self _ _, Or.inr (by simpa using h2)⟩
    by_cases h3 : (seg == [SINGLE_WILDCARD]) = true
    · exact ⟨seg, List.mem_cons_self _ _, Or.inl (by simpa using h3)⟩
    simp only [compileSegs] at h
    by_cases h1 : seg.isEmpty = true
    · rw [if_pos h1] at h; exact absurd h (by simp)
    rw [if_neg h1, if_neg h2, if_neg h3] at h
    by_cases h4 : isValidLiteral seg = true
    · rw [if_pos h4] at h
      cases hrec : compileSegs rest (i + 1) n with
      | error e => rw [hrec] at h; exact absurd h (by simp)
      | ok pr =>
        obtain ⟨ms', hw⟩ := pr
        rw [hrec] at h
        have hinj := Except.ok.inj h
        have hw1 : hw = true := congrArg Prod.snd hinj
        obtain ⟨s, hs, hor⟩ := ih (hw1 ▸ hrec)
        exact ⟨s, List.mem_cons_of_mem seg hs, hor⟩
    · rw [if_neg h4] at h; exact absurd h (by simp)

theorem compileSegs_isOk (segs : List (List Char)) (i : Nat) :
    (compileSegs segs i (i + segs.length)).isOk = specValidSegs segs := by
  induction segs generalizing i with
  | nil => rfl
  | cons seg rest ih =>
    simp only [compileSegs, specValidSegs, List.length_cons]
    have hn : i + (rest.length + 1) = (i + 1) + rest.length := by omega
    by_cases h1 : seg.isEmpty = true
    · have hseg : seg = [] := by simpa using h1
      subst hseg
      rw [if_pos h1]
      have e1 : (([] : List Char) == [SINGLE_WILDCARD]) = false := by decide
      have e2 : (([] : List Char) == [MULTI_WILDCARD]) = false := by decide
      have e3 : isValidLiteral [] = false := by decide
      simp [e1, e2, e3]
    rw [if_neg h1]
    by_cases h2 : (seg == [MULTI_WILDCARD]) = true
    · have hseg : seg = [MULTI_WILDCARD] := by simpa using h2
      subst hseg
      rw [if_pos h2]
      have e1 : ([MULTI_WILDCARD] == [SINGLE_WILDCARD]) = false := by decide
      have e2 : isValidLiteral [MULTI_WILDCARD] = false := by decide
      cases rest with
      | nil =>
        rw [if_neg (show ¬(i ≠ i + (List.length ([] : List (List Char)) + 1) - 1) by
          simp only [List.length_nil]; omega)]
        simp [compileSegs, e1, e2]
      | cons r rs =>
        rw [if_pos (show i ≠ i + ((r :: rs).length + 1) - 1 by
          simp only [List.length_cons]; omega)]
        simp [e1, e2]
    rw [if_neg h2]
    have h2f : (seg == [MULTI_WILDCARD]) = false := by simpa using h2
    by_cases h3 : (seg == [SINGLE_WILDCARD]) = true
    · rw [if_pos h3, h3, hn]
      have h0 := ih (i + 1)
      cases hrec : compileSegs rest (i + 1) ((i + 1) + rest.length) with
      | error e =>
        rw [hrec] at h0
        have h0f : specValidSegs rest = false := by simpa using h0.symm
        simp [h0f, h2f]
      | ok pr =>
        obtain ⟨ms, hw⟩ := pr
        rw [hrec] at h0
        have h0t : specValidSegs rest = true := by simpa using h0.symm
        simp [h0t]
    rw [if_neg h3]
    have h3f : (seg == [SINGLE_WILDCARD]) = false := by simpa using h3
    by_cases h4 : isValidLiteral seg = true
    · rw [if_pos h4, h4, hn]
      have h0 := ih (i + 1)
      cases hrec : compileSegs rest (i + 1) ((i + 1) + rest.length) with
      | error e =>
        rw [hrec] at h0
        have h0f : specValidSegs rest = false := by simpa using h0.symm
        simp [h0f, h2f, h3f]
      | ok pr =>
        obtain ⟨ms, hw⟩ := pr
        rw [hrec] at h0
        have h0t : specValidSegs rest = true := by simpa using h0.symm
        simp [h0t, h2f, h3f]
    · rw [if_neg h4]
      have h4f : isValidLiteral seg = false := by simpa using h4
      simp [h2f, h3f, h4f]

theorem compileMatcherPure_pattern {p : List Char} {m : Matcher}
    (h : compileMatcherPure p = .ok m) : m.pattern = p := by
  simp only [compileMatcherPure] at h
  by_cases he : p.isEmpty = true
  · rw [if_pos he] at h; exact absurd h (by simp)
  · rw [if_neg he] at h
    cases hrec : compileSegs (splitTopic p) 0 (splitTopic p).length with
    | error e => rw [hrec] at h; exact absurd h (by simp)
    | ok pr =>
      obtain ⟨ms, hw⟩ := pr
      rw [hrec] at h
      rw [← Except.ok.inj h]

theorem compileMatcherPure_isOk (p : List Char) :
    (compileMatcherPure p).isOk = specValidPattern p := by
  simp only [compileMatcherPure, specValidPattern]
  by_cases he : p.isEmpty = true
  · rw [if_pos he, he]; rfl
  · have hf : p.isEmpty = false := by simpa using he
    rw [if_neg he, hf]
    have h0 := compileSegs_isOk (splitTopic p) 0
    rw [Nat.zero_add] at h0
    cases hrec : compileSegs (splitTopic p) 0 (splitTopic p).length with
    | error e =>
      rw [hrec] at h0
      have h0f : specValidSegs (splitTopic p) = false := by simpa using h0.symm
      simp [h0f]
    | ok pr =>
      obtain ⟨ms, hw⟩ := pr
      rw [hrec] at h0
      have h0t : specValidSegs (splitTopic p) = true := by simpa using h0.symm
      simp [h0t]

theorem compileMatcherPure_hasWildcards {p : List Char} {m : Matcher}
    (h : compileMatcherPure p = .ok m) (hw : m.hasWildcards = true) :
    ∃ s ∈ splitTopic p, s = [SINGLE_WILDCARD] ∨ s = [MULTI_WILDCARD] := by
  simp only [compileMatcherPure] at h
  by_cases he : p.isEmpty = true
  · rw [if_pos he] at h; exact absurd h (by simp)
  · rw [if_neg he] at h
    cases hrec : compileSegs (splitTopic p) 0 (splitTopic p).length with
    | error e => rw [hrec] at h; exact absurd h (by simp)
    | ok pr =>
      obtain ⟨ms, hwb⟩ := pr
      rw [hrec] at h
      have hm : m = ⟨p, hwb, ms⟩ := (Except.ok.inj h).symm
      rw [hm] at hw
      have hwb1 : hwb = true := hw
      exact compileSegs_wildcard (hwb1 ▸ hrec)

/-! ### Properties of the matcher cache -/

theorem compileMatcher_hit {s : CacheState} {p : List Char} {m : Matcher}
    (hg : cacheGet s p = some m) : compileMatcher s p = .ok (m, s) := by
  simp [compileMatcher, hg]

theorem compileMatcher_miss {s : CacheState} {p : List Char} {m : Matcher}
    {s' : CacheState} (hg : cacheGet s p = none)
    (h : compileMatcher s p = .ok (m, s')) :
    compileMatcherPure p = .ok m ∧
    s'.entries =
      (if MAX_CACHE_SIZE ≤ s.entries.length then s.entries.drop 1 else s.entries)
        ++ [(p, m)] := by
  simp only [compileMatcher, hg] at h
  cases hp : compileMatcherPure p with
  | error e => rw [hp] at h; exact absurd h (by simp)
  | ok m0 =>
    rw [hp] at h
    have hinj := Except.ok.inj h
    rw [Prod.mk.injEq] at hinj
    obtain ⟨hm, hs⟩ := hinj
    subst hm
    exact ⟨rfl, by rw [← hs]⟩

theorem compileMatcher_length {s : CacheState} {p : List Char} {m : Matcher}
    {s' : CacheState} (h : compileMatcher s p = .ok (m, s'))
    (hlen : s.entries.length ≤ MAX_CACHE_SIZE) :
    s'.entries.length ≤ MAX_CACHE_SIZE := by
  cases hg : cacheGet s p with
  | some cached =>
    rw [compileMatcher_hit hg] at h
    have hinj := Except.ok.inj h
    rw [Prod.mk.injEq] at hinj
    rw [← hinj.2]
    exact hlen
  | none =>
    obtain ⟨-, hsh⟩ := compileMatcher_miss hg h
    rw [hsh]
    by_cases hb : MAX_CACHE_SIZE ≤ s.entries.length
    · rw [if_pos hb, List.length_append, List.length_drop]
      simp only [List.length_cons, List.length_nil, MAX_CACHE_SIZE] at hb hlen ⊢
      omega
    · rw [if_neg hb, List.length_append]
      simp only [List.length_cons, List.length_nil, MAX_CACHE_SIZE] at hb hlen ⊢
      omega

/-- Cache states reachable from the initial empty `matcherCache` by
successful `compileMatcher` calls (a throwing call leaves the cache
untouched: every `throw` in the source precedes the cache mutation). -/
inductive Reachable : CacheState → Prop where
  | init : Reachable ⟨[]⟩
  | step {s : CacheState} {p : List Char} {m : Matcher} {s' : CacheState} :
      Reachable s → compileMatcher s p = .ok (m, s') → Reachable s'

theorem reachable_length {s : CacheState} (hs : Reachable s) :
    s.entries.length ≤ MAX_CACHE_SIZE := by
  induction hs with
  | init => simp [MAX_CACHE_SIZE]
  | step hr hc ih => exact compileMatcher_length hc ih

theorem cacheGet_some {s : CacheState} {p : List Char} {m : Matcher}
    (h : cacheGet s p = some m) : ∃ e ∈ s.entries, e.1 = p ∧ e.2 = m := by
  simp only [cacheGet] at h
  cases hf : s.entries.find? (fun e => e.1 == p) with
  | none => rw [hf] at h; exact absurd h (by simp)
  | some e =>
    rw [hf] at h
    simp only [Option.map_some'] at h
    rw [Option.some.injEq] at h
    refine ⟨e, List.mem_of_find?_eq_some hf, ?_, h⟩
    simpa using List.find?_some hf

theorem reachable_entries_compiled {s : CacheState} (hs : Reachable s) :
    ∀ e ∈ s.entries, compileMatcherPure e.1 = .ok e.2 := by
  induction hs with
  | init => intro e he; exact absurd he (List.not_mem_nil e)
  | @step s p m s' hr hc ih =>
    intro e he
    cases hg : cacheGet s p with
    | some cached =>
      rw [compileMatcher_hit hg] at hc
      have hinj := Except.ok.inj hc
      rw [Prod.mk.injEq] at hinj
      exact ih e (hinj.2 ▸ he)
    | none =>
      obtain ⟨hpure, hsh⟩ := compileMatcher_miss hg hc
      rw [hsh] at he
      rcases List.mem_append.mp he with h | h
      · apply ih
        by_cases hb : MAX_CACHE_SIZE ≤ s.entries.length
        · rw [if_pos hb] at h; exact List.mem_of_mem_drop h
        · rw [if_neg hb] at h; exact h
      · have he2 : e = (p, m) := by simpa using h
        rw [he2]; exact hpure

theorem compileMatcher_isOk_reachable {s : CacheState} (hs : Reachable s)
    (p : List Char) : (compileMatcher s p).isOk = specValidPattern p := by
  cases hg : cacheGet s p with
  | some m =>
    rw [compileMatcher_hit hg]
    obtain ⟨e, he, hep, hem⟩ := cacheGet_some hg
    have hcomp := reachable_entries_compiled hs e he
    rw [hep] at hcomp
    rw [isOk_ok, ← compileMatcherPure_isOk, hcomp, isOk_ok]
  | none =>
    simp only [compileMatcher, hg]
    cases hp : compileMatcherPure p with
    | error e => rw [← compileMatcherPure_isOk, hp]; rfl
    | ok m0 => rw [← compileMatcherPure_isOk, hp]; rfl

/-! ### Properties of `matchTopic` -/

theorem matchTopic_no_wildcards {t : List Char} {m : Matcher}
    (h : m.hasWildcards = false) : matchTopic t m = (t == m.pattern) := by
  simp [matchTopic, h]

theorem isValidSegChar_ne {c : Char} (h : isValidSegChar c = true) :
    c ≠ SEGMENT_DELIMITER ∧ c ≠ SINGLE_WILDCARD ∧ c ≠ MULTI_WILDCARD := by
  refine ⟨?_, ?_, ?_⟩ <;> rintro rfl <;> exact absurd h (by decide)

theorem joinTopic_ne_nil {segs : List (List Char)} (hne : segs ≠ [])
    (hhead : ∀ s ∈ segs, s ≠ []) : joinTopic segs ≠ [] := by
  cases segs with
  | nil => exact absurd rfl hne
  | cons s rest =>
    cases rest with
    | nil => exact hhead s (List.mem_cons_self s [])
    | cons r rs =>
      show s ++ SEGMENT_DELIMITER :: joinTopic (r :: rs) ≠ []
      simp

/-! ### Claim theorems -/

/-- C1: for every wildcard-free pattern `p` that compiles and every
topic `t`, matching `t` against the compiled matcher succeeds exactly when
`t` equals `p` as a string — the no-wildcard fast path is plain equality
with the original pattern. -/
theorem exact_match_wildcard_free (p : List Char) (m : Matcher)
    (hplus : SINGLE_WILDCARD ∉ p) (hhash : MULTI_WILDCARD ∉ p)
    (hc : compileMatcherPure p = .ok m) (t : List Char) :
    matchTopic t m = true ↔ t = p := by
  have hpat : m.pattern = p := compileMatcherPure_pattern hc
  have hwf : m.hasWildcards = false := by
    cases hwc : m.hasWildcards with
    | false => rfl
    | true =>
      obtain ⟨s, hs, hor⟩ := compileMatcherPure_hasWildcards hc hwc
      rcases hor with h | h
      · exact absurd
          (mem_of_mem_splitTopic hs (by rw [h]; exact List.mem_cons_self _ _))
          hplus
      · exact absurd
          (mem_of_mem_splitTopic hs (by rw [h]; exact List.mem_cons_self _ _))
          hhash
  rw [matchTopic_no_wildcards hwf, hpat]
  exact beq_iff_eq

/-- Witness for C1 at `p = "a.b"`, `t = "a.b"`. -/
theorem exact_match_wildcard_free_witness :
    matchTopic "a.b".toList
        { pattern := "a.b".toList, hasWildcards := false,
          segments := [.literal "a".toList, .literal "b".toList] } = true ↔
      "a.b".toList = "a.b".toList :=
  exact_match_wildcard_free "a.b".toList _ (by decide) (by decide) rfl
    "a.b".toList

/-- C2: a multi-wildcard pattern segment succeeds immediately, whatever
(and however many, including zero) topic segments remain; concretely
`"a.#"` matches `"a"` and `"a.b.c.d"` but not `"x.y"`. -/
theorem multi_wildcard_breadth :
    (∀ (ts : List (List Char)) (ps : List MatcherSegment),
        matchSegments ts (.multi :: ps) = true) ∧
    compileThenMatch "a.#".toList "a".toList = some true ∧
    compileThenMatch "a.#".toList "a.b.c.d".toList = some true ∧
    compileThenMatch "a.#".toList "x.y".toList = some false :=
  ⟨fun ts _ => by cases ts <;> rfl, by decide, by decide, by decide⟩

/-- C3: compilation succeeds exactly on spec-legal patterns (non-empty,
no empty segments, multi-wildcard only as last segment, literal segments
over `[A-Za-z0-9_-]+`), also through the cache from any reachable cache
state; `"a.#.b"` fails with the wildcard-position error and `"a..b"` with
the empty-segment error. -/
theorem pattern_legality :
    (∀ p : List Char, (compileMatcherPure p).isOk = specValidPattern p) ∧
    (∀ (s : CacheState) (p : List Char), Reachable s →
      (compileMatcher s p).isOk = specValidPattern p) ∧
    compileMatcherPure "a.#.b".toList = .error .multiWildcardNotLast ∧
    compileMatcherPure "a..b".toList = .error (.emptySegment 1) :=
  ⟨compileMatcherPure_isOk,
   fun _s p hs => compileMatcher_isOk_reachable hs p, rfl, rfl⟩

/-- Witness for C3's cached conjunct at the initial cache and `p = "a"`. -/
theorem pattern_legality_witness :
    (compileMatcher ⟨[]⟩ "a".toList).isOk = specValidPattern "a".toList :=
  pattern_legality.2.1 ⟨[]⟩ "a".toList Reachable.init

/-- C4: every cache state reachable by `compileMatcher` calls holds at
most `MAX_CACHE_SIZE = 1000` entries; an insertion below capacity appends
the new entry evicting nothing, and an insertion at capacity drops exactly
the oldest entry (the head of the insertion-ordered entry list) before
appending. -/
theorem cache_bounded_eviction (s : CacheState) (hs : Reachable s) :
    s.entries.length ≤ MAX_CACHE_SIZE ∧
    ∀ p m s', cacheGet s p = none → compileMatcher s p = .ok (m, s') →
      s'.entries.length ≤ MAX_CACHE_SIZE ∧
      (s.entries.length < MAX_CACHE_SIZE → s'.entries = s.entries ++ [(p, m)]) ∧
      (s.entries.length = MAX_CACHE_SIZE →
        s'.entries = s.entries.drop 1 ++ [(p, m)]) := by
  refine ⟨reachable_length hs, ?_⟩
  intro p m s' hg hc
  obtain ⟨-, hsh⟩ := compileMatcher_miss hg hc
  refine ⟨compileMatcher_length hc (reachable_length hs), ?_, ?_⟩
  · intro hlt
    rw [hsh, if_neg (by omega)]
  · intro heq
    rw [hsh, if_pos (by omega)]

/-- Witness for C4 at the initial (empty, hence bounded) cache state. -/
theorem cache_bounded_eviction_witness :
    (CacheState.mk []).entries.length ≤ MAX_CACHE_SIZE :=
  (cache_bounded_eviction ⟨[]⟩ Reachable.init).1

/-- C5: a single-wildcard segment requires exactly one remaining topic
segment — it fails when none remains and otherwise advances both cursors by
one; concretely `"a.+.c"` matches `"a.b.c"` but not `"a.b.d.c"`. -/
theorem single_wildcard_arity :
    (∀ ps : List MatcherSegment, matchSegments [] (.single :: ps) = false) ∧
    (∀ (t : List Char) (ts : List (List Char)) (ps : List MatcherSegment),
        matchSegments (t :: ts) (.single :: ps) = matchSegments ts ps) ∧
    compileThenMatch "a.+.c".toList "a.b.c".toList = some true ∧
    compileThenMatch "a.+.c".toList "a.b.d.c".toList = some false :=
  ⟨fun _ => rfl, fun _ _ _ => rfl, by decide, by decide⟩

/-- C6: `validatePublishTopic` returns normally exactly on concrete
well-formed topics — non-empty strings made of one or more delimiter-joined
segments each matching `[A-Za-z0-9_-]+`; equivalently it throws for any
wildcard character, empty segment, or invalid segment character. -/
theorem validate_publish_topic_iff (t : List Char) :
    (validatePublishTopic t).isOk = true ↔
      ∃ segs : List (List Char), segs ≠ [] ∧
        (∀ s ∈ segs, isValidLiteral s = true) ∧ t = joinTopic segs := by
  constructor
  · intro h
    simp only [validatePublishTopic] at h
    by_cases he : t.isEmpty = true
    · rw [if_pos he] at h; exact absurd h (by simp)
    rw [if_neg he] at h
    by_cases hw :
        (t.contains SINGLE_WILDCARD || t.contains MULTI_WILDCARD) = true
    · rw [if_pos hw] at h; exact absurd h (by simp)
    rw [if_neg hw] at h
    have hall := (validateSegs_isOk (splitTopic t) 0).symm.trans h
    exact ⟨splitTopic t, splitTopic_ne_nil t,
      List.all_eq_true.mp hall, (joinTopic_splitTopic t).symm⟩
  · rintro ⟨segs, hne, hval, rfl⟩
    have hnodelim : ∀ s ∈ segs, SEGMENT_DELIMITER ∉ s := by
      intro s hs hmem
      have hv := hval s hs
      rw [isValidLiteral, Bool.and_eq_true] at hv
      exact (isValidSegChar_ne (List.all_eq_true.mp hv.2 _ hmem)).1 rfl
    have hsplit : splitTopic (joinTopic segs) = segs :=
      splitTopic_joinTopic hne hnodelim
    have hheadne : ∀ s ∈ segs, s ≠ [] := by
      intro s hs h0
      have hv := hval s hs
      rw [isValidLiteral, Bool.and_eq_true, h0] at hv
      exact absurd hv.1 (by decide)
    have hjne : joinTopic segs ≠ [] := joinTopic_ne_nil hne hheadne
    have hnw : ∀ c ∈ joinTopic segs,
        c ≠ SINGLE_WILDCARD ∧ c ≠ MULTI_WILDCARD := by
      intro c hc
      rcases mem_splitTopic_of_mem hc with hcd | ⟨s, hs, hcs⟩
      · subst hcd
        exact ⟨by decide, by decide⟩
      · rw [hsplit] at hs
        have hv := hval s hs
        rw [isValidLiteral, Bool.and_eq_true] at hv
        have hch := isValidSegChar_ne (List.all_eq_true.mp hv.2 _ hcs)
        exact ⟨hch.2.1, hch.2.2⟩
    have hcont1 : (joinTopic segs).contains SINGLE_WILDCARD = false := by
      cases hcc : (joinTopic segs).contains SINGLE_WILDCARD with
      | false => rfl
      | true => exact absurd rfl (hnw _ (List.elem_iff.mp hcc)).1
    have hcont2 : (joinTopic segs).contains MULTI_WILDCARD = false := by
      cases hcc : (joinTopic segs).contains MULTI_WILDCARD with
      | false => rfl
      | true => exact absurd rfl (hnw _ (List.elem_iff.mp hcc)).2
    simp only [validatePublishTopic]
    rw [if_neg (fun h => hjne (List.isEmpty_iff.mp h))]
    rw [if_neg (by rw [hcont1, hcont2]; simp)]
    rw [hsplit, validateSegs_isOk]
    exact List.all_eq_true.mpr hval

/-- C7: a matcher with wildcards rejects any topic whose split contains
an empty segment (leading, trailing or doubled delimiter, or the empty
string). -/
theorem wildcard_match_empty_segment_fails (t : List Char) (m : Matcher)
    (hw : m.hasWildcards = true) (he : [] ∈ splitTopic t) :
    matchTopic t m = false := by
  have hany : (splitTopic t).any (·.isEmpty) = true :=
    List.any_eq_true.mpr ⟨[], he, rfl⟩
  simp [matchTopic, hw, hany]

/-- Witness for C7 at the empty topic against the matcher of `"#"`. -/
theorem wildcard_match_empty_segment_fails_witness :
    matchTopic "".toList
      { pattern := "#".toList, hasWildcards := true, segments := [.multi] } =
      false :=
  wildcard_match_empty_segment_fails "".toList _ rfl (by decide)

/-- C8: compiling the same pattern twice in a row (the second call
served from the cache) yields a matcher with identical matching behaviour
on every topic. -/
theorem cache_idempotent_match (s s' s'' : CacheState) (p : List Char)
    (m1 m2 : Matcher)
    (h1 : compileMatcher s p = .ok (m1, s'))
    (h2 : compileMatcher s' p = .ok (m2, s'')) (t : List Char) :
    matchTopic t m2 = matchTopic t m1 := by
  have hm : m2 = m1 := by
    cases hg : cacheGet s p with
    | some cached =>
      rw [compileMatcher_hit hg] at h1
      have hinj1 := Except.ok.inj h1
      rw [Prod.mk.injEq] at hinj1
      rw [← hinj1.2] at h2
      rw [compileMatcher_hit hg] at h2
      have hinj2 := Except.ok.inj h2
      rw [Prod.mk.injEq] at hinj2
      rw [← hinj2.1, hinj1.1]
    | none =>
      obtain ⟨hpure, hsh⟩ := compileMatcher_miss hg h1
      have hnone : s.entries.find? (fun e => e.1 == p) = none := by
        simp only [cacheGet] at hg
        cases hf : s.entries.find? (fun e => e.1 == p) with
        | none => rfl
        | some e => rw [hf] at hg; exact absurd hg (by simp)
      have hprenone :
          ((if MAX_CACHE_SIZE ≤ s.entries.length then s.entries.drop 1
            else s.entries).find? (fun e => e.1 == p)) = none := by
        rw [List.find?_eq_none] at hnone ⊢
        intro e he
        apply hnone
        by_cases hb : MAX_CACHE_SIZE ≤ s.entries.length
        · rw [if_pos hb] at he; exact List.mem_of_mem_drop he
        · rw [if_neg hb] at he; exact he
      have hg' : cacheGet s' p = some m1 := by
        simp only [cacheGet, hsh]
        rw [List.find?_append, hprenone]
        simp
      rw [compileMatcher_hit hg'] at h2
      have hinj2 := Except.ok.inj h2
      rw [Prod.mk.injEq] at hinj2
      exact hinj2.1.symm
  rw [hm]

/-- Witness for C8: compiling `"a"` twice from the empty cache. -/
theorem cache_idempotent_match_witness :
    matchTopic "a".toList
        { pattern := "a".toList, hasWildcards := false,
          segments := [.literal "a".toList] } =
      matchTopic "a".toList
        { pattern := "a".toList, hasWildcards := false,
          segments := [.literal "a".toList] } :=
  cache_idempotent_match ⟨[]⟩
    ⟨[("a".toList,
       { pattern := "a".toList, hasWildcards := false,
         segments := [.literal "a".toList] })]⟩
    ⟨[("a".toList,
       { pattern := "a".toList, hasWildcards := false,
         segments := [.literal "a".toList] })]⟩
    "a".toList _ _ rfl rfl "a".toList

/-- C9: splitting any string on the delimiter and re-joining the
resulting segments with the same delimiter is the identity. -/
theorem split_join_identity (t : List Char) : joinTopic (splitTopic t) = t :=
  joinTopic_splitTopic t

/-- C10: on a cache hit `compileMatcher` returns the cached matcher and
returns the cache state unchanged — same size, same entries, same order; no
eviction, no reinsertion, and no validation happens (the call succeeds for
any pattern whatsoever that is present). -/
theorem cache_hit_frame (s : CacheState) (p : List Char) (m : Matcher)
    (hg : cacheGet s p = some m) : compileMatcher s p = .ok (m, s) :=
  compileMatcher_hit hg

/-- Witness for C10: a hit on a cached entry keyed by the invalid pattern
`"a..b"` still returns it, untouched — no validation on the hit path. -/
theorem cache_hit_frame_witness :
    compileMatcher
        ⟨[("a..b".toList,
           { pattern := "a..b".toList, hasWildcards := false,
             segments := [.literal "a".toList] })]⟩ "a..b".toList =
      .ok ({ pattern := "a..b".toList, hasWildcards := false,
             segments := [.literal "a".toList] },
        ⟨[("a..b".toList,
           { pattern := "a..b".toList, hasWildcards := false,
             segments := [.literal "a".toList] })]⟩) :=
  cache_hit_frame _ _ _ rfl

end TopicMatcher
